import Mathlib

/-!
Verification of the analytics-to-decision pipeline of the unified options
trading application.

The repository ships the charting frontend (React/TypeScript) and two
dashboard scripts; the backend core modules the spec describes
(greeks_calculator, iv_analyzer, oi_buildup_analyzer, alert_system, the
confluence scalper) are referenced by the repository documentation but their
Python sources are not part of this tree.  Definitions for those components
are therefore modelled from the spec, and each such definition says so in its
doc comment.  Definitions for the dashboard summary, the live tick-to-candle
handler and the option-chain interpretation logic are translated from the
JavaScript/TypeScript sources that are in the tree.
-/

set_option maxHeartbeats 1000000

/-! ## OI buildup classification -/

/-- Sentiment taxonomy for a joint open-interest / price move. -/
inductive BuildupPattern
  | longBuildup
  | shortBuildup
  | longUnwinding
  | shortCovering
  | neutral
deriving DecidableEq, Repr

/-- Modelled from the spec: `backend/core/oi_buildup_analyzer.py` is missing
from the tree.  Classification of one contract from the latest two
snapshots: Δoi>0 & Δprice>0 → LongBuildup; Δoi>0 & Δprice<0 → ShortBuildup;
Δoi<0 & Δprice<0 → LongUnwinding; Δoi<0 & Δprice>0 → ShortCovering;
otherwise Neutral. -/
def classifyBuildup (doi : ℤ) (dprice : ℚ) : BuildupPattern :=
  if 0 < doi ∧ 0 < dprice then .longBuildup
  else if 0 < doi ∧ dprice < 0 then .shortBuildup
  else if doi < 0 ∧ dprice < 0 then .longUnwinding
  else if doi < 0 ∧ 0 < dprice then .shortCovering
  else .neutral

/-! ## IV rank -/

/-- Clamp a rational to the unit interval. -/
def clamp01 (x : ℚ) : ℚ := max 0 (min 1 x)

/-- Modelled from the spec: `backend/core/iv_analyzer.py` is missing from the
tree.  IV rank over the rolling history window:
clamp01((current − min)/(max − min)) × 100, and 0.0 when fewer than a
minimum number of history points are available. -/
def ivRank (minLen : ℕ) (history : List ℚ) (currentIV : ℚ) : ℚ :=
  match history with
  | [] => 0
  | h :: t =>
    if (h :: t).length < minLen then 0
    else
      let minIV := t.foldl min h
      let maxIV := t.foldl max h
      clamp01 ((currentIV - minIV) / (maxIV - minIV)) * 100

/-! ### Helper lemmas about fold-based minimum and maximum -/

theorem foldl_min_mem (t : List ℚ) (h : ℚ) : t.foldl min h ∈ h :: t := by
  induction t generalizing h with
  | nil => simp
  | cons a t ih =>
    have := ih (min h a)
    rcases List.mem_cons.mp this with hm | hm
    · rcases min_choice h a with hc | hc <;> rw [List.foldl_cons] <;> rw [hm, hc] <;> simp
    · simp [List.foldl_cons, List.mem_cons.mpr (Or.inr hm)]

theorem foldl_min_le_init (t : List ℚ) (h : ℚ) : t.foldl min h ≤ h := by
  induction t generalizing h with
  | nil => simp
  | cons a t ih =>
    rw [List.foldl_cons]
    exact le_trans (ih (min h a)) (min_le_left _ _)

theorem foldl_min_le (t : List ℚ) (h : ℚ) : ∀ x ∈ t, t.foldl min h ≤ x := by
  induction t generalizing h with
  | nil => intro x hx; simp at hx
  | cons a t ih =>
    intro x hx
    rw [List.foldl_cons]
    rcases List.mem_cons.mp hx with h1 | h1
    · subst h1
      exact le_trans (foldl_min_le_init t (min h x)) (min_le_right _ _)
    · exact ih (min h a) x h1

theorem foldl_max_mem (t : List ℚ) (h : ℚ) : t.foldl max h ∈ h :: t := by
  induction t generalizing h with
  | nil => simp
  | cons a t ih =>
    have := ih (max h a)
    rcases List.mem_cons.mp this with hm | hm
    · rcases max_choice h a with hc | hc <;> rw [List.foldl_cons] <;> rw [hm, hc] <;> simp
    · simp [List.foldl_cons, List.mem_cons.mpr (Or.inr hm)]

theorem init_le_foldl_max (t : List ℚ) (h : ℚ) : h ≤ t.foldl max h := by
  induction t generalizing h with
  | nil => simp
  | cons a t ih =>
    rw [List.foldl_cons]
    exact le_trans (le_max_left _ _) (ih (max h a))

theorem le_foldl_max (t : List ℚ) (h : ℚ) : ∀ x ∈ t, x ≤ t.foldl max h := by
  induction t generalizing h with
  | nil => intro x hx; simp at hx
  | cons a t ih =>
    intro x hx
    rw [List.foldl_cons]
    rcases List.mem_cons.mp hx with h1 | h1
    · subst h1
      exact le_trans (le_max_right _ _) (init_le_foldl_max t (max h x))
    · exact ih (max h a) x h1

theorem clamp01_nonneg (x : ℚ) : 0 ≤ clamp01 x := le_max_left _ _

theorem clamp01_le_one (x : ℚ) : clamp01 x ≤ 1 :=
  max_le (by norm_num) (min_le_left _ _)

/-! ## Claim C2 -/

/-- C2: for every Δoi and Δprice the classifier assigns exactly one of the
five buildup patterns, following the sign rules: Δoi>0 ∧ Δprice>0 ↔
LongBuildup, Δoi>0 ∧ Δprice<0 ↔ ShortBuildup, Δoi<0 ∧ Δprice<0 ↔
LongUnwinding, Δoi<0 ∧ Δprice>0 ↔ ShortCovering, and Neutral exactly when
either delta is zero — no overlap and no omission. -/
theorem classifyBuildup_partition (doi : ℤ) (dprice : ℚ) :
    (classifyBuildup doi dprice = .longBuildup ↔ 0 < doi ∧ 0 < dprice) ∧
    (classifyBuildup doi dprice = .shortBuildup ↔ 0 < doi ∧ dprice < 0) ∧
    (classifyBuildup doi dprice = .longUnwinding ↔ doi < 0 ∧ dprice < 0) ∧
    (classifyBuildup doi dprice = .shortCovering ↔ doi < 0 ∧ 0 < dprice) ∧
    (classifyBuildup doi dprice = .neutral ↔ doi = 0 ∨ dprice = 0) := by
  unfold classifyBuildup
  split_ifs with h1 h2 h3 h4
  · obtain ⟨ha, hb⟩ := h1
    simp [ha, hb, ha.ne', hb.ne', asymm ha, asymm hb]
  · obtain ⟨ha, hb⟩ := h2
    simp [ha, hb, ha.ne', hb.ne, asymm ha, asymm hb]
  · obtain ⟨ha, hb⟩ := h3
    simp [ha, hb, ha.ne, hb.ne, asymm ha, asymm hb]
  · obtain ⟨ha, hb⟩ := h4
    simp [ha, hb, ha.ne, hb.ne', asymm ha, asymm hb]
  · refine ⟨by simp [h1], by simp [h2], by simp [h3], by simp [h4], ?_⟩
    constructor
    · intro _
      by_contra hc
      push_neg at hc
      obtain ⟨hdo, hdp⟩ := hc
      rcases hdo.lt_or_lt with h | h
      · rcases hdp.lt_or_lt with h' | h'
        · exact h3 ⟨h, h'⟩
        · exact h4 ⟨h, h'⟩
      · rcases hdp.lt_or_lt with h' | h'
        · exact h2 ⟨h, h'⟩
        · exact h1 ⟨h, h'⟩
    · intro _
      rfl

/-! ## Claim C3 -/

/-- C3: with sufficient history the IV rank equals
clamp01((current − min)/(max − min)) × 100, where min and max are attained
over the rolling window; the rank lies in [0,100] for all inputs; and for
history [12,14,18,22,16] with current IV 16 the rank is exactly 40. -/
theorem ivRank_spec :
    (∀ minLen history currentIV,
      0 ≤ ivRank minLen history currentIV ∧ ivRank minLen history currentIV ≤ 100) ∧
    (∀ minLen (h : ℚ) (t : List ℚ) (currentIV : ℚ), minLen ≤ (h :: t).length →
      ∃ mn mx : ℚ, mn ∈ h :: t ∧ mx ∈ h :: t ∧
        (∀ x ∈ h :: t, mn ≤ x ∧ x ≤ mx) ∧
        ivRank minLen (h :: t) currentIV = clamp01 ((currentIV - mn) / (mx - mn)) * 100) ∧
    ivRank 5 [12, 14, 18, 22, 16] 16 = 40 := by
  refine ⟨?_, ?_, ?_⟩
  · intro minLen history currentIV
    cases history with
    | nil => simp [ivRank]
    | cons h t =>
      simp only [ivRank]
      split_ifs
      · norm_num
      · constructor
        · exact mul_nonneg (clamp01_nonneg _) (by norm_num)
        · calc clamp01 ((currentIV - t.foldl min h) / (t.foldl max h - t.foldl min h)) * 100
              ≤ 1 * 100 := mul_le_mul_of_nonneg_right (clamp01_le_one _) (by norm_num)
            _ = 100 := by norm_num
  · intro minLen h t currentIV hlen
    refine ⟨t.foldl min h, t.foldl max h, foldl_min_mem t h, foldl_max_mem t h, ?_, ?_⟩
    · intro x hx
      rcases List.mem_cons.mp hx with h1 | h1
      · subst h1
        exact ⟨foldl_min_le_init t x, init_le_foldl_max t x⟩
      · exact ⟨foldl_min_le t h x h1, le_foldl_max t h x h1⟩
    · simp only [ivRank, if_neg (Nat.not_lt.mpr hlen)]
  · norm_num [ivRank, clamp01]

/-- C3 witness: the second clause of the rank theorem instantiated at the
concrete history [12,14,18,22,16] with current IV 16. -/
theorem ivRank_spec_witness :
    ∃ mn mx : ℚ, mn ∈ (12 : ℚ) :: [14, 18, 22, 16] ∧ mx ∈ (12 : ℚ) :: [14, 18, 22, 16] ∧
      (∀ x ∈ (12 : ℚ) :: [14, 18, 22, 16], mn ≤ x ∧ x ≤ mx) ∧
      ivRank 5 ((12 : ℚ) :: [14, 18, 22, 16]) 16 = clamp01 ((16 - mn) / (mx - mn)) * 100 :=
  ivRank_spec.2.1 5 12 [14, 18, 22, 16] 16 (by norm_num)

/-! ## Implied-volatility solver -/

/-- Convergence tolerance of the implied-volatility iteration. -/
def ivTolerance : ℚ := 1 / 10000

/-- Bound on the number of Newton-Raphson iterations. -/
def ivMaxIterations : ℕ := 50

/-- Result of an implied-volatility solve: the volatility, whether the
result is the low-confidence fallback, and how many iterations were used. -/
structure IVSolveResult where
  sigma : ℚ
  lowConfidence : Bool
  iterations : ℕ
deriving DecidableEq, Repr

/-- Modelled from the spec: one Newton-Raphson update
σ − (price(σ) − market_price)/vega(σ). -/
def newtonStep (price vega : ℚ → ℚ) (marketPrice σ : ℚ) : ℚ :=
  σ - (price σ - marketPrice) / vega σ

/-- Modelled from the spec: `backend/core/greeks_calculator.py` is missing
from the tree.  Fuel-indexed Newton-Raphson loop: stop with the new σ when
|Δσ| < tolerance, fall back to the configured default (flagged low
confidence) on a non-positive vega or when the iteration budget runs out. -/
def solveIVAux (price vega : ℚ → ℚ) (marketPrice defaultVol : ℚ) :
    ℕ → ℚ → ℕ → IVSolveResult
  | 0, _, used => ⟨defaultVol, true, used⟩
  | fuel + 1, σ, used =>
    if vega σ ≤ 0 then ⟨defaultVol, true, used⟩
    else
      if |newtonStep price vega marketPrice σ - σ| < ivTolerance then
        ⟨newtonStep price vega marketPrice σ, false, used + 1⟩
      else
        solveIVAux price vega marketPrice defaultVol fuel
          (newtonStep price vega marketPrice σ) (used + 1)

/-- Modelled from the spec: the implied-volatility solve starts from the
configured default volatility with the full iteration budget. -/
def solveIV (price vega : ℚ → ℚ) (marketPrice defaultVol : ℚ) : IVSolveResult :=
  solveIVAux price vega marketPrice defaultVol ivMaxIterations defaultVol 0

theorem solveIVAux_spec (price vega : ℚ → ℚ) (m d : ℚ) :
    ∀ (fuel : ℕ) (σ : ℚ) (used : ℕ),
      (solveIVAux price vega m d fuel σ used).iterations ≤ used + fuel ∧
      ((solveIVAux price vega m d fuel σ used).lowConfidence = true →
        (solveIVAux price vega m d fuel σ used).sigma = d) ∧
      ((solveIVAux price vega m d fuel σ used).lowConfidence = false →
        ∃ σp : ℚ, (solveIVAux price vega m d fuel σ used).sigma = newtonStep price vega m σp ∧
          |newtonStep price vega m σp - σp| < ivTolerance ∧ 0 < vega σp) := by
  intro fuel
  induction fuel with
  | zero =>
    intro σ used
    refine ⟨by simp [solveIVAux], fun _ => rfl, fun hc => ?_⟩
    simp [solveIVAux] at hc
  | succ fuel ih =>
    intro σ used
    simp only [solveIVAux]
    split_ifs with h1 h2
    · exact ⟨by show used ≤ used + (fuel + 1); omega, fun _ => rfl, fun hc => by simp at hc⟩
    · refine ⟨by show used + 1 ≤ used + (fuel + 1); omega, fun hc => by simp at hc, fun _ => ⟨σ, rfl, h2, not_le.mp h1⟩⟩
    · obtain ⟨i1, i2, i3⟩ := ih (newtonStep price vega m σ) (used + 1)
      exact ⟨by omega, i2, i3⟩

/-- C4: the implied-volatility solve always returns within the bounded
iteration count (50); whenever the result is flagged low-confidence (the
non-convergence or non-positive-vega fallback) the returned volatility is
the configured default; and a result not so flagged came from a Newton step
that met the 1e-4 tolerance with a positive vega. -/
theorem solveIV_terminating_fallback (price vega : ℚ → ℚ) (m d : ℚ) :
    (solveIV price vega m d).iterations ≤ ivMaxIterations ∧
    ((solveIV price vega m d).lowConfidence = true →
      (solveIV price vega m d).sigma = d) ∧
    ((solveIV price vega m d).lowConfidence = false →
      ∃ σp : ℚ, (solveIV price vega m d).sigma = newtonStep price vega m σp ∧
        |newtonStep price vega m σp - σp| < ivTolerance ∧ 0 < vega σp) := by
  obtain ⟨i1, i2, i3⟩ := solveIVAux_spec price vega m d ivMaxIterations d 0
  exact ⟨by simpa using i1, i2, i3⟩

/-- C4 witness: with an everywhere-zero vega the solver immediately falls
back to the configured default volatility (here 0.3), flagged
low-confidence, using zero iterations. -/
theorem solveIV_terminating_fallback_witness :
    (solveIV (fun _ => 0) (fun _ => 0) 0 (3 / 10)).sigma = 3 / 10 ∧
    (solveIV (fun _ => 0) (fun _ => 0) 0 (3 / 10)).iterations ≤ ivMaxIterations :=
  ⟨(solveIV_terminating_fallback (fun _ => 0) (fun _ => 0) 0 (3 / 10)).2.1 (by decide),
    (solveIV_terminating_fallback (fun _ => 0) (fun _ => 0) 0 (3 / 10)).1⟩

/-! ## GreeksEngine -/

/-- Greeks output record for one contract. -/
structure GreeksResult where
  delta : ℚ
  gamma : ℚ
  theta : ℚ
  vega : ℚ
  rho : ℚ
  impliedVol : ℚ
  intrinsic : ℚ
  timeValue : ℚ
deriving DecidableEq, Repr, Inhabited

/-- Modelled from the spec: `backend/core/greeks_calculator.py` is missing
from the tree.  The engine validates its inputs first: degenerate inputs
(T ≤ 0, non-positive spot or strike) yield a null result; otherwise the
closed-form computation (abstracted here as `compute`, since it involves
transcendental functions) runs.  Returning an `Option` models the
never-raise contract. -/
def calculateGreeks (compute : ℚ → ℚ → ℚ → ℚ → ℚ → GreeksResult)
    (S K T r σ : ℚ) : Option GreeksResult :=
  if T ≤ 0 ∨ S ≤ 0 ∨ K ≤ 0 then none
  else some (compute S K T r σ)

/-- C5: for every pricing computation and every degenerate input — T ≤ 0,
non-positive spot, or non-positive strike — the engine returns the null
(`none`) Greeks result; being a total function into `Option`, it never
raises into its caller. -/
theorem calculateGreeks_degenerate_null
    (compute : ℚ → ℚ → ℚ → ℚ → ℚ → GreeksResult) (S K T r σ : ℚ)
    (hdeg : T ≤ 0 ∨ S ≤ 0 ∨ K ≤ 0) :
    calculateGreeks compute S K T r σ = none := by
  simp [calculateGreeks, hdeg]

/-- C5 witness: the degenerate-input theorem at the concrete input
S = 24800, K = 25000, T = 0 (an expired contract). -/
theorem calculateGreeks_degenerate_null_witness :
    calculateGreeks (fun _ _ _ _ _ => default) 24800 25000 0 (1 / 10) (15 / 100) = none :=
  calculateGreeks_degenerate_null (fun _ _ _ _ _ => default) 24800 25000 0 (1 / 10)
    (15 / 100) (Or.inl le_rfl)

/-- Modelled from the spec: Black-Scholes call price
S·N(d1) − K·e^(−rT)·N(d2), with the cumulative normal `N` and the
discount factor `disc` = e^(−rT) abstracted (they are transcendental). -/
def callPrice (N : ℚ → ℚ) (S K disc d1 d2 : ℚ) : ℚ :=
  S * N d1 - K * disc * N d2

/-- Modelled from the spec: Black-Scholes put price
K·e^(−rT)·N(−d2) − S·N(−d1), with the same abstractions as the call. -/
def putPrice (N : ℚ → ℚ) (S K disc d1 d2 : ℚ) : ℚ :=
  K * disc * N (-d2) - S * N (-d1)

/-- C6: put-call parity for the modelled pricing function: for every
cumulative-distribution function satisfying the symmetry
N(x) + N(−x) = 1 and every spot, strike, discount factor and pair of
Black-Scholes terms d1, d2, call − put = S − K·e^(−rT) holds exactly. -/
theorem putCallParity (N : ℚ → ℚ) (hN : ∀ x : ℚ, N x + N (-x) = 1)
    (S K disc d1 d2 : ℚ) :
    callPrice N S K disc d1 d2 - putPrice N S K disc d1 d2 = S - K * disc := by
  have e1 : N (-d1) = 1 - N d1 := by linarith [hN d1]
  have e2 : N (-d2) = 1 - N d2 := by linarith [hN d2]
  unfold callPrice putPrice
  rw [e1, e2]
  ring

/-- C6 witness: parity applied with the symmetric cdf constantly 1/2 at
S = 24800, K = 25000, discount factor 99/100. -/
theorem putCallParity_witness :
    callPrice (fun _ => 1 / 2) 24800 25000 (99 / 100) 1 2 -
      putPrice (fun _ => 1 / 2) 24800 25000 (99 / 100) 1 2 =
      24800 - 25000 * (99 / 100) :=
  putCallParity (fun _ => 1 / 2) (fun _ => by norm_num) 24800 25000 (99 / 100) 1 2

/-! ## AlertEngine -/

/-- Alert record: cooldown in minutes, time of the last firing (none when
the alert has never fired), and whether evaluation is active (paused
alerts are not evaluated). -/
structure Alert where
  cooldownMinutes : ℚ
  lastFiredAt : Option ℚ
  active : Bool
deriving DecidableEq, Repr

/-- Modelled from the spec: `backend/core/alert_system.py` is missing from
the tree.  An alert may fire now iff it is active and either never fired or
the cooldown has elapsed since the last firing. -/
def canFire (a : Alert) (now : ℚ) : Bool :=
  a.active &&
    match a.lastFiredAt with
    | none => true
    | some t => decide (a.cooldownMinutes ≤ now - t)

/-- Modelled from the spec: evaluating one condition check at time `now`.
When the condition triggered and the cooldown gate passes, the alert fires
and records the firing time; otherwise it is unchanged. -/
def alertStep (a : Alert) (now : ℚ) (triggered : Bool) : Alert × Bool :=
  if triggered && canFire a now then
    (⟨a.cooldownMinutes, some now, a.active⟩, true)
  else (a, false)

/-- Modelled from the spec: an alert folded over a time-stamped sequence of
condition checks, returning the final alert and the fire decisions. -/
def alertRun (a : Alert) : List (ℚ × Bool) → Alert × List Bool
  | [] => (a, [])
  | (now, trig) :: evs =>
    let st := alertStep a now trig
    let rest := alertRun st.1 evs
    (rest.1, st.2 :: rest.2)

/-- C7: an alert that fired at time t0 does not fire again at any time
before t0 + cooldown_minutes, however often the condition re-triggers (the
step leaves it unchanged and reports no fire); and in the concrete
scenario of a 30-minute cooldown firing at t = 0, re-triggers at t = 10 and
t = 31 produce fire decisions [true, false, true]. -/
theorem alert_cooldown (a : Alert) (t0 now : ℚ) (triggered : Bool)
    (hfired : a.lastFiredAt = some t0) (hcool : now - t0 < a.cooldownMinutes) :
    alertStep a now triggered = (a, false) ∧
    (alertRun ⟨30, none, true⟩ [(0, true), (10, true), (31, true)]).2 =
      [true, false, true] := by
  constructor
  · unfold alertStep canFire
    rw [hfired]
    have : ¬ a.cooldownMinutes ≤ now - t0 := not_le.mpr hcool
    simp [this]
  · norm_num [alertRun, alertStep, canFire]

/-- C7 witness: the no-refire theorem applied to a concrete alert with a
30-minute cooldown that last fired at t = 0, re-checked at t = 10. -/
theorem alert_cooldown_witness :
    alertStep ⟨30, some 0, true⟩ 10 true = (⟨30, some 0, true⟩, false) :=
  (alert_cooldown ⟨30, some 0, true⟩ 0 10 true rfl (by norm_num)).1

/-! ## ConfluenceScalper state machine -/

/-- Scalper lifecycle states. -/
inductive ScalperState
  | idle
  | armed
  | entered
  | exited
deriving DecidableEq, Repr

/-- Observation of one option leg on a tick: its price and, when available,
the relevant recent local swing level (a swing high for the confirming leg,
a swing low for the inverse leg); `none` models missing swing data. -/
structure LegObs where
  price : ℚ
  swing : Option ℚ
deriving DecidableEq, Repr

/-- Input the scalper sees on one tick: the underlying price, the nearest
valid support/resistance level when one exists, whether prevailing
sentiment aligns with the level, the two leg observations when available,
and whether any of the ENTERED-exit conditions has triggered. -/
structure ScalperTick where
  price : ℚ
  level : Option ℚ
  sentimentAligned : Bool
  confirmLeg : Option LegObs
  inverseLeg : Option LegObs
  exitTrigger : Bool
deriving DecidableEq, Repr

/-- Modelled from the spec: the underlying price touches a level iff a
valid level exists and the price is within the tolerance of it; no valid
level fails the gate (fail-closed). -/
def touchesLevel (tolerance : ℚ) (t : ScalperTick) : Bool :=
  match t.level with
  | none => false
  | some lv => decide (|t.price - lv| ≤ tolerance)

/-- Modelled from the spec: two-sided breakout confirmation — the
confirming leg's price breaks above its recent local swing high AND the
inverse leg's price breaks below its recent local swing low; any missing
leg or missing swing data fails the gate (fail-closed). -/
def breakoutConfirmed (t : ScalperTick) : Bool :=
  match t.confirmLeg, t.inverseLeg with
  | some c, some i =>
    match c.swing, i.swing with
    | some hi, some lo => decide (hi < c.price) && decide (i.price < lo)
    | _, _ => false
  | _, _ => false

/-- Modelled from the spec: the confluence scalper's transition function.
IDLE arms on a level touch with aligned sentiment; ARMED enters only on
two-sided breakout confirmation; ENTERED exits when any exit rule
triggers; EXITED returns to IDLE immediately. -/
def scalperStep (tolerance : ℚ) (s : ScalperState) (t : ScalperTick) : ScalperState :=
  match s with
  | .idle => if touchesLevel tolerance t && t.sentimentAligned then .armed else .idle
  | .armed => if breakoutConfirmed t then .entered else .armed
  | .entered => if t.exitTrigger then .exited else .entered
  | .exited => .idle

/-- Modelled from the spec: the scalper state after consuming a tick
sequence. -/
def scalperRun (tolerance : ℚ) (s : ScalperState) (ts : List ScalperTick) : ScalperState :=
  ts.foldl (scalperStep tolerance) s

/-- C1: the scalper never reaches ENTERED without the two-sided breakout
confirmation: for every tick sequence on which the confirmation is false
throughout — even if the price touches a level — a run from any state other
than ENTERED never ends in ENTERED (and since every prefix of such a
sequence is such a sequence, ENTERED is never visited); moreover any tick
with a missing leg or missing swing data fails the confirmation, so
indeterminate input is fail-closed. -/
theorem scalper_entry_safety (tolerance : ℚ) (ts : List ScalperTick)
    (hnb : ∀ t ∈ ts, breakoutConfirmed t = false) :
    (∀ s : ScalperState, s ≠ .entered → scalperRun tolerance s ts ≠ .entered) ∧
    (∀ t : ScalperTick,
      t.confirmLeg = none ∨ t.inverseLeg = none ∨
        (∃ c, t.confirmLeg = some c ∧ c.swing = none) ∨
        (∃ i, t.inverseLeg = some i ∧ i.swing = none) →
      breakoutConfirmed t = false) := by
  constructor
  · induction ts with
    | nil => intro s hs; simpa [scalperRun] using hs
    | cons t ts ih =>
      intro s hs
      have hts : ∀ u ∈ ts, breakoutConfirmed u = false := fun u hu =>
        hnb u (List.mem_cons_of_mem _ hu)
      have hstep : scalperStep tolerance s t ≠ .entered := by
        have ht : breakoutConfirmed t = false := hnb t (List.mem_cons_self _ _)
        cases s with
        | idle => unfold scalperStep; split_ifs <;> simp
        | armed => unfold scalperStep; rw [ht]; simp
        | entered => exact absurd rfl hs
        | exited => unfold scalperStep; simp
      simpa [scalperRun, List.foldl_cons] using ih hts (scalperStep tolerance s t) hstep
  · intro t hmiss
    rcases hmiss with hm | hm | ⟨c, hc, hcs⟩ | ⟨i, hi, his⟩
    · simp [breakoutConfirmed, hm]
    · cases hcl : t.confirmLeg <;> simp [breakoutConfirmed, hcl, hm]
    · cases hil : t.inverseLeg with
      | none => simp [breakoutConfirmed, hc, hil]
      | some i => simp [breakoutConfirmed, hc, hil, hcs]
    · cases hcl : t.confirmLeg with
      | none => simp [breakoutConfirmed, hcl, hi]
      | some c =>
        cases hcs2 : c.swing with
        | none => simp [breakoutConfirmed, hcl, hi, hcs2]
        | some hv => simp [breakoutConfirmed, hcl, hi, hcs2, his]

/-- C1 witness: a two-tick sequence in which the price touches a level with
aligned sentiment (arming the scalper) but the breakout legs are missing;
the run from IDLE ends ARMED, not ENTERED. -/
theorem scalper_entry_safety_witness :
    scalperRun 5 .idle
      [⟨100, some 100, true, none, none, false⟩,
        ⟨101, some 100, true, none, none, false⟩] ≠ .entered :=
  (scalper_entry_safety 5
      [⟨100, some 100, true, none, none, false⟩,
        ⟨101, some 100, true, none, none, false⟩]
      (by intro t ht; fin_cases ht <;> rfl)).1 .idle (by simp)

/-! ## Options dashboard summary (translated from the dashboard script) -/

/-- Row of the per-strike OI distribution consumed by the dashboard. -/
structure OIRow where
  strike : ℚ
  call_oi : ℚ
  put_oi : ℚ
deriving DecidableEq, Repr

/-- Sorting a copy of the OI data by call OI, descending, as
`[...oiData.data].sort((a, b) => b.call_oi - a.call_oi)` does. -/
def sortByCallOIDesc (rows : List OIRow) : List OIRow :=
  rows.mergeSort (fun a b => decide (b.call_oi ≤ a.call_oi))

/-- Sorting a copy of the OI data by put OI, descending, as
`[...oiData.data].sort((a, b) => b.put_oi - a.put_oi)` does. -/
def sortByPutOIDesc (rows : List OIRow) : List OIRow :=
  rows.mergeSort (fun a b => decide (b.put_oi ≤ a.put_oi))

/-- Support/resistance block of the dashboard summary: when the OI data is
non-empty it displays the strike of maximum put OI (support) first and the
strike of maximum call OI (resistance) second. -/
def supportResistanceSummary (rows : List OIRow) : Option (ℚ × ℚ) :=
  if 0 < rows.length then
    match (sortByPutOIDesc rows).head?, (sortByCallOIDesc rows).head? with
    | some maxPut, some maxCall => some (maxPut.strike, maxCall.strike)
    | _, _ => none
  else none

theorem head_mergeSort_max (key : OIRow → ℚ) (rows : List OIRow) (hne : rows ≠ []) :
    ∃ m, (rows.mergeSort (fun a b => decide (key b ≤ key a))).head? = some m ∧
      m ∈ rows ∧ ∀ r ∈ rows, key r ≤ key m := by
  have htrans : ∀ a b c : OIRow,
      (fun a b => decide (key b ≤ key a)) a b = true →
      (fun a b => decide (key b ≤ key a)) b c = true →
      (fun a b => decide (key b ≤ key a)) a c = true := by
    intro a b c hab hbc
    simp only [decide_eq_true_eq] at hab hbc ⊢
    exact le_trans hbc hab
  have htotal : ∀ a b : OIRow,
      ((fun a b => decide (key b ≤ key a)) a b ||
        (fun a b => decide (key b ≤ key a)) b a) = true := by
    intro a b
    simp only [Bool.or_eq_true, decide_eq_true_eq]
    exact le_total (key b) (key a)
  have hsorted := List.sorted_mergeSort htrans htotal rows
  have hperm := List.mergeSort_perm rows (fun a b => decide (key b ≤ key a))
  cases hms : rows.mergeSort (fun a b => decide (key b ≤ key a)) with
  | nil =>
    exfalso
    have := hperm.length_eq
    rw [hms] at this
    exact hne (List.length_eq_zero.mp this.symm)
  | cons m tl =>
    rw [hms] at hsorted hperm
    refine ⟨m, rfl, hperm.subset (List.mem_cons_self _ _), ?_⟩
    intro r hr
    rcases List.mem_cons.mp (hperm.symm.subset hr) with h1 | h1
    · subst h1
      exact le_rfl
    · have := (List.pairwise_cons.mp hsorted).1 r h1
      simpa using this

/-- C8: for every non-empty per-strike OI distribution, the dashboard
summary displays a strike attaining the maximum put OI as the support
(first component) and a strike attaining the maximum call OI as the
resistance (second component). -/
theorem supportResistance_max (rows : List OIRow) (hne : rows ≠ []) :
    ∃ p c : OIRow, p ∈ rows ∧ c ∈ rows ∧
      supportResistanceSummary rows = some (p.strike, c.strike) ∧
      (∀ r ∈ rows, r.put_oi ≤ p.put_oi) ∧
      (∀ r ∈ rows, r.call_oi ≤ c.call_oi) := by
  obtain ⟨p, hp1, hp2, hp3⟩ := head_mergeSort_max (fun r => r.put_oi) rows hne
  obtain ⟨c, hc1, hc2, hc3⟩ := head_mergeSort_max (fun r => r.call_oi) rows hne
  have hp1' : (sortByPutOIDesc rows).head? = some p := hp1
  have hc1' : (sortByCallOIDesc rows).head? = some c := hc1
  refine ⟨p, c, hp2, hc2, ?_, hp3, hc3⟩
  unfold supportResistanceSummary
  rw [if_pos (List.length_pos.mpr hne), hp1', hc1']

/-- C8 witness: the dashboard summary of a concrete two-row OI
distribution picks the put-heavy strike 24800 as support and the
call-heavy strike 25200 as resistance. -/
theorem supportResistance_max_witness :
    ∃ p c : OIRow,
      p ∈ [(⟨24800, 50, 900⟩ : OIRow), ⟨25200, 800, 60⟩] ∧
      c ∈ [(⟨24800, 50, 900⟩ : OIRow), ⟨25200, 800, 60⟩] ∧
      supportResistanceSummary [⟨24800, 50, 900⟩, ⟨25200, 800, 60⟩] =
        some (p.strike, c.strike) ∧
      (∀ r ∈ [(⟨24800, 50, 900⟩ : OIRow), ⟨25200, 800, 60⟩], r.put_oi ≤ p.put_oi) ∧
      (∀ r ∈ [(⟨24800, 50, 900⟩ : OIRow), ⟨25200, 800, 60⟩], r.call_oi ≤ c.call_oi) :=
  supportResistance_max [⟨24800, 50, 900⟩, ⟨25200, 800, 60⟩] (by simp)

/-! ## Live tick-to-candle handler (translated from the charting App) -/

/-- One OHLC candle of the chart's raw data array. -/
structure Candle where
  time : ℤ
  open_ : ℚ
  high : ℚ
  low : ℚ
  close : ℚ
  volume : ℚ
deriving DecidableEq, Repr

/-- One live tick event: `last_price` is `none` when the numeric conversion
yields NaN, `ts_ms` is the epoch timestamp in milliseconds, and `ltq` is
the traded quantity (`none` when the field is missing; the code reads
`quote.ltq || 0`). -/
structure TickQuote where
  last_price : Option ℚ
  ts_ms : ℤ
  ltq : Option ℚ
deriving DecidableEq, Repr

/-- Bucketed candle time `ts - (ts % intervalInSeconds)`, with the
JavaScript remainder (sign of the dividend, `Int.tmod`). -/
def bucketTime (intervalInSeconds ts : ℤ) : ℤ :=
  ts - Int.tmod ts intervalInSeconds

/-- Fresh candle opened by a tick in a new bucket. -/
def newCandle (candleTime : ℤ) (price vol : ℚ) : Candle :=
  ⟨candleTime, price, price, price, price, vol⟩

/-- Last candle mutated by a tick in the current bucket: close set to the
tick price, high/low widened, volume accumulated. -/
def updatedCandle (lastCandle : Candle) (price vol : ℚ) : Candle :=
  ⟨lastCandle.time, lastCandle.open_, max lastCandle.high price,
    min lastCandle.low price, price, lastCandle.volume + vol⟩

/-- Live tick handler of the charting App (`socketService.onTick`): rejects
NaN and non-positive prices, appends a candle for a strictly later bucket
(also when the array is empty), mutates the last candle for the current
bucket, and leaves the array unchanged for an earlier bucket. -/
def applyTick (intervalInSeconds : ℤ) (prev : List Candle) (q : TickQuote) : List Candle :=
  match q.last_price with
  | none => prev
  | some price =>
    if price ≤ 0 then prev
    else
      let candleTime := bucketTime intervalInSeconds (Int.fdiv q.ts_ms 1000)
      let vol := q.ltq.getD 0
      match prev.getLast? with
      | none => prev ++ [newCandle candleTime price vol]
      | some lastCandle =>
        if lastCandle.time < candleTime then prev ++ [newCandle candleTime price vol]
        else if candleTime = lastCandle.time then
          prev.dropLast ++ [updatedCandle lastCandle price vol]
        else prev

theorem pairwise_time_getLast (l : List Candle) (lc : Candle)
    (hp : List.Pairwise (fun a b : Candle => a.time < b.time) l)
    (hl : l.getLast? = some lc) : ∀ a ∈ l, a.time ≤ lc.time := by
  have hne : l ≠ [] := by
    intro h
    subst h
    simp at hl
  have hgl : l.getLast hne = lc := by
    have h2 := List.getLast?_eq_getLast l hne
    rw [hl] at h2
    exact (Option.some_inj.mp h2).symm
  have hdecomp := List.dropLast_append_getLast hne
  intro a ha
  rw [← hdecomp] at ha hp
  rcases List.mem_append.mp ha with hmem | hmem
  · have := (List.pairwise_append.mp hp).2.2 a hmem (l.getLast hne) (by simp)
    rw [hgl] at this
    exact this.le
  · have : a = l.getLast hne := by simpa using hmem
    rw [this, hgl]

/-- C9: the tick handler preserves strictly increasing candle times, and
case by case: a NaN or non-positive price leaves the array unchanged; a
tick whose bucket is earlier than the last candle's time leaves it
unchanged; a tick in the current bucket replaces only the last candle
(close set to the tick price, high/low widened, volume accumulated); and a
tick in a strictly later bucket appends exactly one new candle. -/
theorem applyTick_monotone_cases (I : ℤ) (prev : List Candle) (q : TickQuote)
    (hinc : List.Pairwise (fun a b : Candle => a.time < b.time) prev) :
    List.Pairwise (fun a b : Candle => a.time < b.time) (applyTick I prev q) ∧
    (q.last_price = none → applyTick I prev q = prev) ∧
    (∀ p : ℚ, q.last_price = some p → p ≤ 0 → applyTick I prev q = prev) ∧
    (∀ (p : ℚ) (lc : Candle), q.last_price = some p → ¬p ≤ 0 → prev.getLast? = some lc →
      bucketTime I (Int.fdiv q.ts_ms 1000) < lc.time → applyTick I prev q = prev) ∧
    (∀ (p : ℚ) (lc : Candle), q.last_price = some p → ¬p ≤ 0 → prev.getLast? = some lc →
      bucketTime I (Int.fdiv q.ts_ms 1000) = lc.time →
      applyTick I prev q = prev.dropLast ++ [updatedCandle lc p (q.ltq.getD 0)]) ∧
    (∀ (p : ℚ) (lc : Candle), q.last_price = some p → ¬p ≤ 0 → prev.getLast? = some lc →
      lc.time < bucketTime I (Int.fdiv q.ts_ms 1000) →
      applyTick I prev q =
        prev ++ [newCandle (bucketTime I (Int.fdiv q.ts_ms 1000)) p (q.ltq.getD 0)]) := by
  have e2 : q.last_price = none → applyTick I prev q = prev := by
    intro h
    simp [applyTick, h]
  have e3 : ∀ p : ℚ, q.last_price = some p → p ≤ 0 → applyTick I prev q = prev := by
    intro p h hle
    simp [applyTick, h, hle]
  have e4 : ∀ (p : ℚ) (lc : Candle), q.last_price = some p → ¬p ≤ 0 →
      prev.getLast? = some lc → bucketTime I (Int.fdiv q.ts_ms 1000) < lc.time →
      applyTick I prev q = prev := by
    intro p lc h hpos hlast hlt
    simp [applyTick, h, hpos, hlast, not_lt.mpr hlt.le, hlt.ne]
  have e5 : ∀ (p : ℚ) (lc : Candle), q.last_price = some p → ¬p ≤ 0 →
      prev.getLast? = some lc → bucketTime I (Int.fdiv q.ts_ms 1000) = lc.time →
      applyTick I prev q = prev.dropLast ++ [updatedCandle lc p (q.ltq.getD 0)] := by
    intro p lc h hpos hlast heq
    simp [applyTick, h, hpos, hlast, not_lt.mpr heq.le, heq]
  have e6 : ∀ (p : ℚ) (lc : Candle), q.last_price = some p → ¬p ≤ 0 →
      prev.getLast? = some lc → lc.time < bucketTime I (Int.fdiv q.ts_ms 1000) →
      applyTick I prev q =
        prev ++ [newCandle (bucketTime I (Int.fdiv q.ts_ms 1000)) p (q.ltq.getD 0)] := by
    intro p lc h hpos hlast hlt
    simp [applyTick, h, hpos, hlast, hlt]
  have e7 : ∀ p : ℚ, q.last_price = some p → ¬p ≤ 0 → prev.getLast? = none →
      applyTick I prev q =
        prev ++ [newCandle (bucketTime I (Int.fdiv q.ts_ms 1000)) p (q.ltq.getD 0)] := by
    intro p h hpos hlast
    simp [applyTick, h, hpos, hlast]
  refine ⟨?_, e2, e3, e4, e5, e6⟩
  cases hq : q.last_price with
  | none =>
    rw [e2 hq]
    exact hinc
  | some p =>
    by_cases hple : p ≤ 0
    · rw [e3 p hq hple]
      exact hinc
    · cases hlast : prev.getLast? with
      | none =>
        have hpe : prev = [] := by
          cases prev with
          | nil => rfl
          | cons a l => simp at hlast
        rw [e7 p hq hple hlast, hpe]
        simp
      | some lc =>
        have hne : prev ≠ [] := by
          intro hcon
          subst hcon
          simp at hlast
        have hgl : prev.getLast hne = lc := by
          have h2 := List.getLast?_eq_getLast prev hne
          rw [hlast] at h2
          exact (Option.some_inj.mp h2).symm
        rcases lt_trichotomy lc.time (bucketTime I (Int.fdiv q.ts_ms 1000)) with hlt | heq | hgt
        · rw [e6 p lc hq hple hlast hlt, List.pairwise_append]
          refine ⟨hinc, by simp, ?_⟩
          intro a ha b hb
          have hb' : b = newCandle (bucketTime I (Int.fdiv q.ts_ms 1000)) p (q.ltq.getD 0) := by
            simpa using hb
          subst hb'
          exact lt_of_le_of_lt (pairwise_time_getLast prev lc hinc hlast a ha)
            (by simpa [newCandle] using hlt)
        · rw [e5 p lc hq hple hlast heq.symm, List.pairwise_append]
          have hdecomp := List.dropLast_append_getLast hne
          have hinc' := hinc
          rw [← hdecomp] at hinc'
          obtain ⟨h1, _, h3⟩ := List.pairwise_append.mp hinc'
          refine ⟨h1, by simp, ?_⟩
          intro a ha b hb
          have hb' : b = updatedCandle lc p (q.ltq.getD 0) := by
            simpa using hb
          subst hb'
          have := h3 a ha (prev.getLast hne) (by simp)
          rw [hgl] at this
          simpa [updatedCandle] using this
        · rw [e4 p lc hq hple hlast hgt]
          exact hinc

/-- C9 witness: the invariant theorem applied to the empty candle array and
a NaN tick, whose handler leaves the array unchanged. -/
theorem applyTick_monotone_cases_witness :
    applyTick 60 [] ⟨none, 0, none⟩ = [] :=
  (applyTick_monotone_cases 60 [] ⟨none, 0, none⟩ (by simp)).2.1 rfl

/-! ## Option-chain market interpretation (translated from OptionChain) -/

/-- One history entry of the fetched option-chain data; the OI totals may
be missing on old entries (the code reads `prev.total_call_oi || 0`). -/
structure HistEntry where
  spot : ℚ
  pcr : ℚ
  total_call_oi : Option ℚ
  total_put_oi : Option ℚ
deriving DecidableEq, Repr, Inhabited

/-- Fetched option-chain data: the history may itself be absent, and the
current chain-wide OI totals sit beside it. -/
structure ChainData where
  history : Option (List HistEntry)
  total_call_oi : ℚ
  total_put_oi : ℚ
deriving DecidableEq, Repr

/-- Market-interpretation signals the component can emit. -/
inductive SignalType
  | overconfidentBulls
  | contrarianBuy
  | resistanceBuilding
  | supportBuilding
  | potentialTop
  | potentialBottom
deriving DecidableEq, Repr

/-- Market-interpretation rules of the OptionChain component: empty when
the data is absent, has no history, or has fewer than two history points;
otherwise the PCR-level, OI-and-price and PCR-price-divergence signals from
the last two entries. -/
def interpretations (data : Option ChainData) : List SignalType :=
  match data with
  | none => []
  | some d =>
    match d.history with
    | none => []
    | some hist =>
      if hist.length < 2 then []
      else
        let current := hist.getD (hist.length - 1) default
        let prev := hist.getD (hist.length - 2) default
        let priceRising := decide (prev.spot < current.spot)
        let s1 : List SignalType :=
          if current.pcr < 7 / 10 then [.overconfidentBulls]
          else if 13 / 10 < current.pcr then [.contrarianBuy]
          else []
        let callOIIncreased := decide (prev.total_call_oi.getD 0 < d.total_call_oi)
        let putOIIncreased := decide (prev.total_put_oi.getD 0 < d.total_put_oi)
        let s2 : List SignalType :=
          if priceRising && callOIIncreased then [.resistanceBuilding]
          else if !priceRising && putOIIncreased then [.supportBuilding]
          else []
        let s3 : List SignalType :=
          if priceRising && decide (current.pcr < prev.pcr) then [.potentialTop]
          else if !priceRising && decide (prev.pcr < current.pcr) then [.potentialBottom]
          else []
        s1 ++ s2 ++ s3

/-- C10: the interpretation logic fails toward no signal — absent data,
absent history, or fewer than two history points yield the empty signal
list; conversely any non-empty signal list came from data with at least
two history entries. -/
theorem interpretations_fail_closed (data : Option ChainData) :
    ((data = none ∨ (∃ d, data = some d ∧ d.history = none) ∨
        (∃ d hist, data = some d ∧ d.history = some hist ∧ hist.length < 2)) →
      interpretations data = []) ∧
    (interpretations data ≠ [] →
      ∃ d hist, data = some d ∧ d.history = some hist ∧ 2 ≤ hist.length) := by
  constructor
  · rintro (h | ⟨d, rfl, hh⟩ | ⟨d, hist, rfl, hh, hlen⟩)
    · rw [h]
      rfl
    · simp [interpretations, hh]
    · simp [interpretations, hh, if_pos hlen]
  · intro hne
    cases data with
    | none => exact absurd rfl hne
    | some d =>
      cases hh : d.history with
      | none =>
        exact absurd (by simp [interpretations, hh]) hne
      | some hist =>
        by_cases hlen : hist.length < 2
        · exact absurd (by simp [interpretations, hh, hlen]) hne
        · exact ⟨d, hist, rfl, hh, not_lt.mp hlen⟩

/-- C10 witness: the fail-closed theorem applied to absent data. -/
theorem interpretations_fail_closed_witness : interpretations none = [] :=
  (interpretations_fail_closed none).1 (Or.inl rfl)
